import Mathlib

set_option maxHeartbeats 1000000
set_option maxRecDepth 100000

/-!
Formal model of `src/generate.py`, a static-site generator that renders a
binary tree as one directory per tree position, each holding an `index.html`.

Python values are modelled shallowly: a `None`-or-`Node` object reference
becomes the inductive `Node` below, Python strings stay `String`, and the
filesystem side effects of a run become the explicit list of `FsEvent`s the
run performs, in program order.
-/

/-- A Python `Node` reference: either `None` (`Node.null`) or a node object
with a `value` and `left`/`right` child references (`src/generate.py`,
lines 4-11). -/
inductive Node where
  | null : Node
  | node (value : Int) (left : Node) (right : Node) : Node
  deriving DecidableEq, Repr

/-- `build_example_tree` (`src/generate.py`, lines 13-38). -/
def build_example_tree : Node :=
  .node 10
    (.node 9 (.node 5 .null .null) (.node 2 .null .null))
    (.node 15 (.node (-3) .null .null) (.node 5 .null (.node 22 .null .null)))

/-- Python string repetition `"../" * depth` (left operand of line 48). -/
def dotSlashRep : Nat → String
  | 0 => ""
  | n + 1 => "../" ++ dotSlashRep n

/-- `get_css_path` (`src/generate.py`, lines 41-48):
`"../" * depth + "styles.css"`. -/
def get_css_path (depth : Nat) : String :=
  dotSlashRep depth ++ "styles.css"

/-- The `left_link_html` local of `generate_node_page` (line 62). -/
def left_link_html : String :=
  "<a class=\"circle-link\" href=\"left/index.html\">Left</a>"

/-- The `right_link_html` local of `generate_node_page` (line 63). -/
def right_link_html : String :=
  "<a class=\"circle-link\" href=\"right/index.html\">Right</a>"

/-- The `parent_link_html` local of `generate_node_page` (lines 65-66).
Python truthiness of the string-or-`None` `parent_path` decides between the
anchor and `''`: both `None` and the empty string are falsy. -/
def parent_link_html (parent_path : Option String) : String :=
  match parent_path with
  | none => ""
  | some p =>
    if p = "" then ""
    else "<a class=\"circle-link\" href=\"" ++ p ++ "\">Return to Parent</a>"

/-- The `html_content` f-string of `generate_node_page` (lines 69-85),
interpolating `node.value`, the css path for `depth` and the three link
snippets.  Only `node.value` is read from the node: lines 62-63 emit the
Left and Right anchors unconditionally. -/
def node_page_html (value : Int) (parent_path : Option String) (depth : Nat) : String :=
  "<!DOCTYPE html>\n<html lang=\"en\">\n<head>\n    <meta charset=\"UTF-8\" />\n    <title>Node " ++
  toString value ++
  "</title>\n    <link rel=\"stylesheet\" href=\"" ++
  get_css_path depth ++
  "\">\n</head>\n<body>\n    <h1 class=\"node-value\">" ++
  toString value ++
  "</h1>\n    <nav>\n        " ++
  left_link_html ++
  "\n        " ++
  parent_link_html parent_path ++
  "\n        " ++
  right_link_html ++
  "\n    </nav>\n</body>\n</html>\n"

/-- Python `str()` as an f-string applies it to `parent_path` in
`generate_null_page` (line 109): `str(None) = "None"`, a string is itself. -/
def pyStr : Option String → String
  | none => "None"
  | some p => p

/-- `output_dir.count(os.sep)` with POSIX `os.sep = "/"` (line 104). -/
def sepCount (s : String) : Nat :=
  s.data.count '/'

/-- The `html_content` f-string of `generate_null_page` (lines 99-113).  Its
css path is computed from the separator count of `output_dir`, not from a
depth parameter. -/
def null_page_html (output_dir : String) (parent_path : Option String) : String :=
  "<!DOCTYPE html>\n<html lang=\"en\">\n<head>\n    <meta charset=\"UTF-8\" />\n    <title>Null</title>\n    <link rel=\"stylesheet\" href=\"" ++
  get_css_path (sepCount output_dir) ++
  "\">\n</head>\n<body>\n    <h1 class=\"node-value\">null</h1>\n    <nav>\n        <a class=\"circle-link\" href=\"" ++
  pyStr parent_path ++
  "\">Return to Parent</a>\n    </nav>\n</body>\n</html>\n"

/-- `os.path.join(a, b)` for the relative component names this program joins
(`"left"`, `"right"`, `"index.html"`; never absolute, so the absolute-`b`
branch of `os.path.join` is unreachable): an empty `a` yields `b`, a trailing
separator is not doubled, otherwise one separator is inserted. -/
def pjoin (a b : String) : String :=
  if a.data = [] then b
  else if a.data.getLast? = some '/' then a ++ b
  else a ++ "/" ++ b

/-- One filesystem side effect of a run, in program order. -/
inductive FsEvent where
  | mkdir (path : String)
  | write (path : String) (content : String)
  deriving DecidableEq, Repr

/-- The path an event touches. -/
def FsEvent.path : FsEvent → String
  | .mkdir p => p
  | .write p _ => p

/-- `generate_node_page` (lines 50-89): render the node page and write it to
`output_dir/index.html`. -/
def generate_node_page (value : Int) (parent_path : Option String)
    (output_dir : String) (depth : Nat) : FsEvent :=
  .write (pjoin output_dir "index.html") (node_page_html value parent_path depth)

/-- `generate_null_page` (lines 92-117): render the null page and write it to
`output_dir/index.html`. -/
def generate_null_page (output_dir : String) (parent_path : Option String) : FsEvent :=
  .write (pjoin output_dir "index.html") (null_page_html output_dir parent_path)

/-- `generate_tree_pages` (lines 119-156).  The Python tests `if node.left:`
and `if node.right:` are object truthiness, i.e. `is not None`; both branches
recurse with the same directory, parent link and depth, so each pair of
branches collapses to one recursive call on the child reference. -/
def generate_tree_pages : Node → String → Option String → Nat → List FsEvent
  | .null, output_dir, parent_path, _ =>
    [ .mkdir output_dir, generate_null_page output_dir parent_path]
  | .node value left right, output_dir, parent_path, depth =>
    [ .mkdir output_dir, generate_node_page value parent_path output_dir depth] ++
    generate_tree_pages left (pjoin output_dir "left") (some "../index.html") (depth + 1) ++
    generate_tree_pages right (pjoin output_dir "right") (some "../index.html") (depth + 1)

/-! ### Counting substring occurrences

`countSub l pat` counts the positions of `l` at which `pat` occurs as a
contiguous segment; `containsSub s pat` says `pat` occurs somewhere in `s`.
These drive every statement of the form "the page contains (exactly) this
link" below. -/

/-- Number of positions of `l` at which `pat` starts (contiguously). -/
def countSub : List Char → List Char → Nat
  | [], _ => 0
  | c :: rest, pat => (if pat <+: c :: rest then 1 else 0) + countSub rest pat

/-- `pat` occurs contiguously somewhere in `s`. -/
def containsSub (s pat : String) : Prop :=
  countSub s.data pat.data ≠ 0

instance (s pat : String) : Decidable (containsSub s pat) := by
  unfold containsSub; infer_instance

theorem countSub_cons (c : Char) (l pat : List Char) :
    countSub (c :: l) pat = (if pat <+: c :: l then 1 else 0) + countSub l pat :=
  rfl

theorem countSub_append_le (A B pat : List Char) :
    countSub B pat ≤ countSub (A ++ B) pat := by
  induction A with
  | nil => simp
  | cons c rest ih =>
    rw [List.cons_append, countSub_cons]
    omega

theorem countSub_self_append (pat B : List Char) (hp : pat ≠ []) :
    1 ≤ countSub (pat ++ B) pat := by
  cases pat with
  | nil => exact absurd rfl hp
  | cons c rest =>
    have hpre : c :: rest <+: c :: (rest ++ B) := by
      have h := List.prefix_append (c :: rest) B
      rwa [List.cons_append] at h
    rw [List.cons_append, countSub_cons, if_pos hpre]
    omega

/-- An explicit occurrence makes `countSub` positive. -/
theorem countSub_pos_mid (A P B : List Char) (hp : P ≠ []) :
    countSub (A ++ (P ++ B)) P ≠ 0 := by
  have h1 := countSub_self_append P B hp
  have h2 := countSub_append_le A (P ++ B) P
  omega

/-- A pattern that shares no character with `v` cannot reach across `v`:
its occurrences in `A ++ v ++ B` lie in `A` iff they fit in `A`. -/
theorem prefix_skip (pat A v B : List Char) (hv : v ≠ [])
    (hdis : ∀ c ∈ v, c ∉ pat) : (pat <+: A ++ (v ++ B)) ↔ pat <+: A := by
  constructor
  · intro h
    rcases le_or_lt pat.length A.length with hle | hgt
    · exact List.prefix_of_prefix_length_le h (List.prefix_append A (v ++ B)) hle
    · exfalso
      obtain ⟨t, ht⟩ := h
      cases v with
      | nil => exact hv rfl
      | cons vc vt =>
        have hAlt : A.length < (pat ++ t).length := by
          simp only [List.length_append]
          omega
        have hwhole : A.length < (A ++ (vc :: vt ++ B)).length := by
          simp only [List.length_append, List.length_cons]
          omega
        have hchar : (pat ++ t)[A.length] = pat[A.length] :=
          List.getElem_append_left hgt
        have hchar2 : (A ++ (vc :: vt ++ B))[A.length] = vc := by
          rw [List.getElem_append_right (Nat.le_refl _)]
          simp
        have heq : pat[A.length] = vc := by
          rw [← hchar]
          have := congrArg (fun l => l[A.length]?) ht
          simp only [List.getElem?_eq_getElem hAlt, List.getElem?_eq_getElem hwhole] at this
          rw [Option.some_inj] at this
          rw [this, hchar2]
        exact hdis vc (by simp) (heq ▸ List.getElem_mem hgt)
  · intro h
    exact h.trans (List.prefix_append A (v ++ B))

theorem countSub_disjoint_left (v B pat : List Char) (hp : pat ≠ []) :
    (∀ c ∈ v, c ∉ pat) → countSub (v ++ B) pat = countSub B pat := by
  induction v with
  | nil => simp
  | cons c rest ih =>
    intro hdis
    have hc : c ∉ pat := hdis c (by simp)
    have hnp : ¬ (pat <+: c :: (rest ++ B)) := by
      intro hpre
      cases pat with
      | nil => exact hp rfl
      | cons p pt =>
        rw [List.cons_prefix_cons] at hpre
        obtain ⟨rfl, -⟩ := hpre
        exact hc (by simp)
    rw [List.cons_append, countSub_cons, if_neg hnp]
    simpa using ih (fun x hx => hdis x (by simp [hx]))

/-- Occurrence counting distributes over a separator block `v` that shares no
character with the (nonempty) pattern. -/
theorem countSub_sandwich (A v B pat : List Char) (hp : pat ≠ []) (hv : v ≠ [])
    (hdis : ∀ c ∈ v, c ∉ pat) :
    countSub (A ++ (v ++ B)) pat = countSub A pat + countSub B pat := by
  induction A with
  | nil => simpa [countSub] using countSub_disjoint_left v B pat hp hdis
  | cons c rest ih =>
    have hiff : (pat <+: c :: (rest ++ (v ++ B))) ↔ pat <+: c :: rest := by
      simpa using prefix_skip pat (c :: rest) v B hv hdis
    rw [List.cons_append, countSub_cons, countSub_cons, ih]
    rcases Classical.em (pat <+: c :: rest) with hc | hc
    · rw [if_pos (hiff.mpr hc), if_pos hc]
      omega
    · rw [if_neg (fun h => hc (hiff.mp h)), if_neg hc]
      omega

/-- `countSub` really counts contiguous occurrences: it is nonzero exactly
when the list splits around the pattern. -/
theorem countSub_ne_zero_iff (l pat : List Char) (hp : pat ≠ []) :
    countSub l pat ≠ 0 ↔ ∃ A B, l = A ++ (pat ++ B) := by
  induction l with
  | nil =>
    constructor
    · intro h
      exact absurd rfl h
    · rintro ⟨A, B, h⟩
      rcases List.append_eq_nil.mp h.symm with ⟨-, h2⟩
      rcases List.append_eq_nil.mp h2 with ⟨h3, -⟩
      exact absurd h3 hp
  | cons c rest ih =>
    simp only [countSub]
    constructor
    · intro h
      rcases Classical.em (pat <+: c :: rest) with hc | hc
      · obtain ⟨t, ht⟩ := hc
        exact ⟨[], t, by simp [ht]⟩
      · rw [if_neg hc] at h
        simp only [Nat.zero_add] at h
        obtain ⟨A, B, hAB⟩ := ih.mp h
        exact ⟨c :: A, B, by simp [hAB]⟩
    · rintro ⟨A, B, hAB⟩
      cases A with
      | nil =>
        simp only [List.nil_append] at hAB
        have : pat <+: c :: rest := ⟨B, hAB.symm⟩
        rw [if_pos this]
        omega
      | cons a A2 =>
        simp only [List.cons_append, List.cons.injEq] at hAB
        have : countSub rest pat ≠ 0 := ih.mpr ⟨A2, B, hAB.2⟩
        omega

/-! ### Character classes of the interpolated fragments

The decimal rendering of an integer uses only `-` and digits, and the
`"../" * depth` block uses only `.` and `/`.  These facts let
`countSub_sandwich` step over the variable fragments of a page. -/

/-- The characters Python's decimal `str(int)` can produce. -/
def decChars : List Char :=
  [ '-', '0', '1', '2', '3', '4', '5', '6', '7', '8', '9']

theorem digitChar_mem_decChars (n : Nat) (h : n < 10) :
    Nat.digitChar n ∈ decChars := by
  interval_cases n <;> decide

theorem toDigitsCore_chars (fuel : Nat) : ∀ (n : Nat) (acc : List Char),
    (∀ c ∈ acc, c ∈ decChars) →
    ∀ c ∈ Nat.toDigitsCore 10 fuel n acc, c ∈ decChars := by
  induction fuel with
  | zero =>
    intro n acc hacc
    simpa [Nat.toDigitsCore] using hacc
  | succ fuel ih =>
    intro n acc hacc
    have hstep : ∀ c ∈ Nat.digitChar (n % 10) :: acc, c ∈ decChars := by
      intro c hc
      rcases List.mem_cons.mp hc with rfl | hc
      · exact digitChar_mem_decChars _ (Nat.mod_lt _ (by omega))
      · exact hacc c hc
    simp only [Nat.toDigitsCore]
    split
    · exact hstep
    · exact ih _ _ hstep

theorem toDigitsCore_ne_nil (fuel : Nat) : ∀ (n : Nat) (acc : List Char),
    fuel ≠ 0 ∨ acc ≠ [] → Nat.toDigitsCore 10 fuel n acc ≠ [] := by
  induction fuel with
  | zero =>
    intro n acc h
    rcases h with h | h
    · exact absurd rfl h
    · simpa [Nat.toDigitsCore] using h
  | succ fuel ih =>
    intro n acc _
    simp only [Nat.toDigitsCore]
    split
    · simp
    · exact ih _ _ (Or.inr (by simp))

theorem natRepr_chars (n : Nat) : ∀ c ∈ (Nat.repr n).data, c ∈ decChars := by
  have h := toDigitsCore_chars (n + 1) n [] (by simp)
  simpa [Nat.repr, Nat.toDigits, List.asString] using h

theorem natRepr_ne_nil (n : Nat) : (Nat.repr n).data ≠ [] := by
  have h := toDigitsCore_ne_nil (n + 1) n [] (Or.inl (by omega))
  simpa [Nat.repr, Nat.toDigits, List.asString] using h

theorem intStr_chars (v : Int) : ∀ c ∈ (toString v).data, c ∈ decChars := by
  cases v with
  | ofNat n =>
    have h : (toString (Int.ofNat n)).data = (Nat.repr n).data := rfl
    rw [h]
    exact natRepr_chars n
  | negSucc n =>
    have h : toString (Int.negSucc n) = "-" ++ Nat.repr (n + 1) := rfl
    rw [h, String.data_append]
    intro c hc
    rcases List.mem_append.mp hc with h2 | h2
    · have hd : ("-").data = [ '-'] := rfl
      rw [hd] at h2
      simp only [List.mem_singleton] at h2
      simp [h2, decChars]
    · exact natRepr_chars _ c h2

theorem intStr_ne_nil (v : Int) : (toString v).data ≠ [] := by
  cases v with
  | ofNat n =>
    have h : (toString (Int.ofNat n)).data = (Nat.repr n).data := rfl
    rw [h]
    exact natRepr_ne_nil n
  | negSucc n =>
    have h : toString (Int.negSucc n) = "-" ++ Nat.repr (n + 1) := rfl
    rw [h, String.data_append]
    simp

theorem dotSlashRep_chars (d : Nat) :
    ∀ c ∈ (dotSlashRep d).data, c = '.' ∨ c = '/' := by
  induction d with
  | zero => simp [dotSlashRep]
  | succ d ih =>
    intro c hc
    simp only [dotSlashRep, String.data_append] at hc
    rcases List.mem_append.mp hc with h | h
    · simp only [List.mem_cons, List.not_mem_nil, or_false] at h
      tauto
    · exact ih c h

theorem dotSlashRep_succ_ne_nil (d : Nat) : (dotSlashRep (d + 1)).data ≠ [] := by
  simp [dotSlashRep, String.data_append]

/-! ### The positions of a run

A run of `generate_tree_pages` visits one position per real node plus one
per missing child slot.  `genPositions` lists them in traversal order as
move sequences from the root; the master lemmas `writesOf_gen` and
`mkdirsOf_gen` state that the run's writes and directory creations are
exactly the images of those positions. -/

/-- One traversal step. -/
inductive Move where
  | left : Move
  | right : Move
  deriving DecidableEq, Repr

/-- The subdirectory name of a step (lines 143 and 151). -/
def Move.dirname : Move → String
  | .left => "left"
  | .right => "right"

/-- All positions a run on `t` visits, in traversal order: the position
itself, then the whole left subtree, then the whole right subtree.  A null
marker is itself a position and has no descendants. -/
def genPositions : Node → List (List Move)
  | .null => [ []]
  | .node _ l r =>
    [] :: ((genPositions l).map (Move.left :: ·) ++ (genPositions r).map (Move.right :: ·))

/-- The positions holding a real node: the root-to-node paths of `t`. -/
def realPaths : Node → List (List Move)
  | .null => []
  | .node _ l r =>
    [] :: ((realPaths l).map (Move.left :: ·) ++ (realPaths r).map (Move.right :: ·))

/-- The positions holding a null marker: exactly one step past each missing
child slot. -/
def nullPaths : Node → List (List Move)
  | .null => [ []]
  | .node _ l r =>
    (nullPaths l).map (Move.left :: ·) ++ (nullPaths r).map (Move.right :: ·)

/-- Dereference a path in a tree (total; stops at `null`). -/
def follow : Node → List Move → Node
  | t, [] => t
  | .null, _ :: _ => .null
  | .node _ l _, .left :: q => follow l q
  | .node _ _ r, .right :: q => follow r q

/-- The output directory of position `q` under root directory `root`. -/
def dirAt (root : String) (q : List Move) : String :=
  q.foldl (fun d m => pjoin d m.dirname) root

/-- The parent link a run started with `parent_path = pp` passes to the page
at position `q`: the root keeps `pp`, every deeper position receives
`"../index.html"` (lines 144 and 152). -/
def pAt (q : List Move) (pp : Option String) : Option String :=
  match q with
  | [] => pp
  | _ :: _ => some "../index.html"

/-- The page content a run started at `(root, pp, d)` writes at position
`q`. -/
def pageContentAt (t : Node) (pp : Option String) (d : Nat) (root : String)
    (q : List Move) : String :=
  match follow t q with
  | .null => null_page_html (dirAt root q) (pAt q pp)
  | .node v _ _ => node_page_html v (pAt q pp) (d + q.length)

/-- The write events of a run, as (path, content) pairs in order. -/
def writesOf (evs : List FsEvent) : List (String × String) :=
  evs.filterMap fun e =>
    match e with
    | .write p c => some (p, c)
    | .mkdir _ => none

/-- The directories a run creates, in order. -/
def mkdirsOf (evs : List FsEvent) : List String :=
  evs.filterMap fun e =>
    match e with
    | .mkdir p => some p
    | .write _ _ => none

theorem writesOf_append (l1 l2 : List FsEvent) :
    writesOf (l1 ++ l2) = writesOf l1 ++ writesOf l2 :=
  List.filterMap_append l1 l2 _

theorem mkdirsOf_append (l1 l2 : List FsEvent) :
    mkdirsOf (l1 ++ l2) = mkdirsOf l1 ++ mkdirsOf l2 :=
  List.filterMap_append l1 l2 _

theorem writesOf_mkdir_cons (p : String) (evs : List FsEvent) :
    writesOf (.mkdir p :: evs) = writesOf evs :=
  rfl

theorem writesOf_write_cons (p c : String) (evs : List FsEvent) :
    writesOf (.write p c :: evs) = (p, c) :: writesOf evs :=
  rfl

theorem mkdirsOf_mkdir_cons (p : String) (evs : List FsEvent) :
    mkdirsOf (.mkdir p :: evs) = p :: mkdirsOf evs :=
  rfl

theorem mkdirsOf_write_cons (p c : String) (evs : List FsEvent) :
    mkdirsOf (.write p c :: evs) = mkdirsOf evs :=
  rfl

theorem pAt_deep (q : List Move) :
    pAt q (some "../index.html") = some "../index.html" := by
  cases q <;> rfl

theorem dirAt_cons (root : String) (m : Move) (q : List Move) :
    dirAt root (m :: q) = dirAt (pjoin root m.dirname) q :=
  rfl

theorem dirAt_nil (root : String) : dirAt root [] = root :=
  rfl

theorem pageContentAt_nil_node (v : Int) (l r : Node) (pp : Option String)
    (d : Nat) (root : String) :
    pageContentAt (.node v l r) pp d root [] = node_page_html v pp d :=
  rfl

theorem pageContentAt_cons_left (v : Int) (l r : Node) (pp : Option String)
    (d : Nat) (root : String) (q : List Move) :
    pageContentAt (.node v l r) pp d root (.left :: q) =
      pageContentAt l (some "../index.html") (d + 1) (pjoin root "left") q := by
  unfold pageContentAt
  have hf : follow (.node v l r) (.left :: q) = follow l q := rfl
  rw [hf]
  cases follow l q with
  | null =>
    rw [dirAt_cons, pAt_deep]
    rfl
  | node v2 l2 r2 =>
    rw [pAt_deep]
    show node_page_html v2 (some "../index.html") (d + (q.length + 1)) = _
    congr 1
    omega

theorem pageContentAt_cons_right (v : Int) (l r : Node) (pp : Option String)
    (d : Nat) (root : String) (q : List Move) :
    pageContentAt (.node v l r) pp d root (.right :: q) =
      pageContentAt r (some "../index.html") (d + 1) (pjoin root "right") q := by
  unfold pageContentAt
  have hf : follow (.node v l r) (.right :: q) = follow r q := rfl
  rw [hf]
  cases follow r q with
  | null =>
    rw [dirAt_cons, pAt_deep]
    rfl
  | node v2 l2 r2 =>
    rw [pAt_deep]
    show node_page_html v2 (some "../index.html") (d + (q.length + 1)) = _
    congr 1
    omega

/-- Master lemma: the writes of a run are exactly one page per position, in
traversal order. -/
theorem writesOf_gen (t : Node) : ∀ (root : String) (pp : Option String) (d : Nat),
    writesOf (generate_tree_pages t root pp d) =
      (genPositions t).map fun q =>
        (pjoin (dirAt root q) "index.html", pageContentAt t pp d root q) := by
  induction t with
  | null =>
    intro root pp d
    rfl
  | node v l r ihl ihr =>
    intro root pp d
    have hl := ihl (pjoin root "left") (some "../index.html") (d + 1)
    have hr := ihr (pjoin root "right") (some "../index.html") (d + 1)
    have hsplit : writesOf (generate_tree_pages (.node v l r) root pp d) =
        (pjoin root "index.html", node_page_html v pp d) ::
        (writesOf (generate_tree_pages l (pjoin root "left") (some "../index.html") (d + 1)) ++
         writesOf (generate_tree_pages r (pjoin root "right") (some "../index.html") (d + 1))) := by
      simp [generate_tree_pages, generate_node_page, writesOf_mkdir_cons,
        writesOf_write_cons, writesOf_append]
    rw [hsplit, hl, hr]
    simp only [genPositions, List.map_cons, List.map_append, List.map_map,
      Function.comp_def, pageContentAt_cons_left, pageContentAt_cons_right,
      dirAt_cons, Move.dirname, dirAt_nil, pageContentAt_nil_node]

/-- Master lemma: the directories a run creates are exactly one per
position, in traversal order. -/
theorem mkdirsOf_gen (t : Node) : ∀ (root : String) (pp : Option String) (d : Nat),
    mkdirsOf (generate_tree_pages t root pp d) = (genPositions t).map (dirAt root) := by
  induction t with
  | null =>
    intro root pp d
    rfl
  | node v l r ihl ihr =>
    intro root pp d
    have hl := ihl (pjoin root "left") (some "../index.html") (d + 1)
    have hr := ihr (pjoin root "right") (some "../index.html") (d + 1)
    have hsplit : mkdirsOf (generate_tree_pages (.node v l r) root pp d) =
        root ::
        (mkdirsOf (generate_tree_pages l (pjoin root "left") (some "../index.html") (d + 1)) ++
         mkdirsOf (generate_tree_pages r (pjoin root "right") (some "../index.html") (d + 1))) := by
      simp [generate_tree_pages, generate_node_page, mkdirsOf_mkdir_cons,
        mkdirsOf_write_cons, mkdirsOf_append]
    rw [hsplit, hl, hr]
    simp only [genPositions, List.map_cons, List.map_append, List.map_map,
      Function.comp_def, dirAt_cons, Move.dirname, dirAt_nil]

/-- The visited positions are exactly the real-node paths plus the null
positions (as a permutation of lists of positions). -/
theorem genPositions_perm (t : Node) :
    (genPositions t).Perm (realPaths t ++ nullPaths t) := by
  have hre : ∀ (w x y z : List (List Move)),
      ((w ++ x) ++ (y ++ z)).Perm ((w ++ y) ++ (x ++ z)) := by
    intro w x y z
    have hperm : (x ++ y).Perm (y ++ x) := List.perm_append_comm
    have h2 : (w ++ ((x ++ y) ++ z)).Perm (w ++ ((y ++ x) ++ z)) :=
      List.Perm.append_left w (hperm.append_right z)
    have h1 : (w ++ x) ++ (y ++ z) = w ++ ((x ++ y) ++ z) := by
      simp [List.append_assoc]
    have h3 : w ++ ((y ++ x) ++ z) = (w ++ y) ++ (x ++ z) := by
      simp [List.append_assoc]
    rw [h1, ← h3]
    exact h2
  induction t with
  | null => simp [genPositions, realPaths, nullPaths]
  | node v l r ihl ihr =>
    simp only [genPositions, realPaths, nullPaths, List.cons_append]
    refine List.Perm.cons _ ?_
    have hmain :
        ((genPositions l).map (Move.left :: ·) ++ (genPositions r).map (Move.right :: ·)).Perm
          ((realPaths l ++ nullPaths l).map (Move.left :: ·) ++
           (realPaths r ++ nullPaths r).map (Move.right :: ·)) :=
      List.Perm.append (ihl.map _) (ihr.map _)
    rw [List.map_append, List.map_append] at hmain
    exact hmain.trans (hre _ _ _ _)

/-! ### Decomposing the rendered pages

The two page templates are fixed character data around three kinds of
variable fragments: the decimal value, the `"../" * k` block of the css
path, and the parent link.  The segment constants below are exactly the
literal fragments of `node_page_html` and `null_page_html`; the
decomposition lemmas re-express a page as the concatenation of its
fragments, which lets `countSub_sandwich` compute link counts. -/

def nodeSeg1 : List Char :=
  ("<!DOCTYPE html>\n<html lang=\"en\">\n<head>\n    <meta charset=\"UTF-8\" />\n    <title>Node ").data

def nodeSeg2 : List Char :=
  ("</title>\n    <link rel=\"stylesheet\" href=\"").data

def cssSeg : List Char :=
  ("styles.css").data

def nodeSeg3 : List Char :=
  ("\">\n</head>\n<body>\n    <h1 class=\"node-value\">").data

def nodeSeg4 : List Char :=
  ("</h1>\n    <nav>\n        ").data

def spaceSeg : List Char :=
  ("\n        ").data

def nodeSeg5 : List Char :=
  ("\n    </nav>\n</body>\n</html>\n").data

def nullSeg1 : List Char :=
  ("<!DOCTYPE html>\n<html lang=\"en\">\n<head>\n    <meta charset=\"UTF-8\" />\n    <title>Null</title>\n    <link rel=\"stylesheet\" href=\"").data

def nullSeg2 : List Char :=
  ("\">\n</head>\n<body>\n    <h1 class=\"node-value\">null</h1>\n    <nav>\n        <a class=\"circle-link\" href=\"").data

def nullSeg3 : List Char :=
  ("\">Return to Parent</a>\n    </nav>\n</body>\n</html>\n").data

/-- The parent anchor of every non-root page. -/
def parent_anchor_html : String :=
  "<a class=\"circle-link\" href=\"../index.html\">Return to Parent</a>"

theorem node_page_decomp (v : Int) (pp : Option String) (d : Nat) :
    (node_page_html v pp d).data =
      nodeSeg1 ++ ((toString v).data ++ (nodeSeg2 ++ ((dotSlashRep d).data ++
        ((cssSeg ++ nodeSeg3) ++ ((toString v).data ++
          (nodeSeg4 ++ (left_link_html.data ++ (spaceSeg ++
            ((parent_link_html pp).data ++ (spaceSeg ++
              (right_link_html.data ++ nodeSeg5))))))))))) := by
  simp [node_page_html, get_css_path, nodeSeg1, nodeSeg2, nodeSeg3, nodeSeg4,
    nodeSeg5, cssSeg, spaceSeg, String.data_append, List.append_assoc]

theorem null_page_decomp (dir : String) (pp : Option String) :
    (null_page_html dir pp).data =
      nullSeg1 ++ ((dotSlashRep (sepCount dir)).data ++
        ((cssSeg ++ nullSeg2) ++ ((pyStr pp).data ++ nullSeg3))) := by
  simp [null_page_html, get_css_path, nullSeg1, nullSeg2, nullSeg3, cssSeg,
    String.data_append, List.append_assoc]

theorem countSub_le_of_suffix (S L pat : List Char) (h : S <:+ L) :
    countSub S pat ≤ countSub L pat := by
  obtain ⟨A, rfl⟩ := h
  exact countSub_append_le A S pat

/-- A node page rendered with a falsy `parent_path` (`None` or `""`) has no
parent link: the text `Return to Parent` does not occur in it. -/
theorem node_page_no_parent (v : Int) (pp : Option String) (d : Nat)
    (hpp : parent_link_html pp = "") :
    ¬ containsSub (node_page_html v pp d) "Return to Parent" := by
  intro hocc
  have hpat : ("Return to Parent").data ≠ [] := by decide
  have hdec : ∀ c ∈ decChars, c ∉ ("Return to Parent").data := by decide
  have hdis1 : ∀ c ∈ (toString v).data, c ∉ ("Return to Parent").data :=
    fun c hc => hdec c (intStr_chars v c hc)
  have hdots : ∀ c ∈ (dotSlashRep d).data, c ∉ ("Return to Parent").data := by
    intro c hc
    rcases dotSlashRep_chars d c hc with rfl | rfl <;> decide
  have hempty : (parent_link_html pp).data = [] := by rw [hpp]
  have hcount : countSub (node_page_html v pp d).data ("Return to Parent").data = 0 := by
    rw [node_page_decomp, hempty, List.nil_append]
    rw [countSub_sandwich _ _ _ _ hpat (intStr_ne_nil v) hdis1]
    have hz1 : countSub nodeSeg1 ("Return to Parent").data = 0 := by decide
    cases d with
    | zero =>
      have h0 : (dotSlashRep 0).data = [] := rfl
      rw [h0, List.nil_append, ← List.append_assoc]
      rw [countSub_sandwich _ _ _ _ hpat (intStr_ne_nil v) hdis1]
      have hz2 : countSub (nodeSeg2 ++ (cssSeg ++ nodeSeg3)) ("Return to Parent").data = 0 := by
        decide
      have hz3 : countSub (nodeSeg4 ++ (left_link_html.data ++ (spaceSeg ++ (spaceSeg ++
          (right_link_html.data ++ nodeSeg5))))) ("Return to Parent").data = 0 := by
        decide
      omega
    | succ k =>
      rw [countSub_sandwich _ _ _ _ hpat (dotSlashRep_succ_ne_nil k) hdots]
      rw [countSub_sandwich _ _ _ _ hpat (intStr_ne_nil v) hdis1]
      have hz2 : countSub nodeSeg2 ("Return to Parent").data = 0 := by decide
      have hz2b : countSub (cssSeg ++ nodeSeg3) ("Return to Parent").data = 0 := by decide
      have hz3 : countSub (nodeSeg4 ++ (left_link_html.data ++ (spaceSeg ++ (spaceSeg ++
          (right_link_html.data ++ nodeSeg5))))) ("Return to Parent").data = 0 := by
        decide
      omega
  exact hocc hcount

/-- Exhibiting a decomposition of a string around the pattern shows
containment. -/
theorem containsSub_of_decomp (s pat : String) (A B : List Char)
    (hp : pat.data ≠ []) (h : s.data = A ++ (pat.data ++ B)) :
    containsSub s pat := by
  unfold containsSub
  rw [h]
  exact countSub_pos_mid A pat.data B hp

/-- Every node page contains the Left anchor, whatever the node's children
are. -/
theorem node_page_has_left (v : Int) (pp : Option String) (d : Nat) :
    containsSub (node_page_html v pp d) left_link_html := by
  apply containsSub_of_decomp _ _
    (nodeSeg1 ++ ((toString v).data ++ (nodeSeg2 ++ ((dotSlashRep d).data ++
      ((cssSeg ++ nodeSeg3) ++ ((toString v).data ++ nodeSeg4))))))
    (spaceSeg ++ ((parent_link_html pp).data ++ (spaceSeg ++
      (right_link_html.data ++ nodeSeg5))))
    (by decide)
  rw [node_page_decomp]
  simp [List.append_assoc]

/-- Every node page contains the Right anchor, whatever the node's children
are. -/
theorem node_page_has_right (v : Int) (pp : Option String) (d : Nat) :
    containsSub (node_page_html v pp d) right_link_html := by
  apply containsSub_of_decomp _ _
    (nodeSeg1 ++ ((toString v).data ++ (nodeSeg2 ++ ((dotSlashRep d).data ++
      ((cssSeg ++ nodeSeg3) ++ ((toString v).data ++ (nodeSeg4 ++
        (left_link_html.data ++ (spaceSeg ++ ((parent_link_html pp).data ++
          spaceSeg))))))))))
    nodeSeg5
    (by decide)
  rw [node_page_decomp]
  simp [List.append_assoc]

/-- A node page rendered with a truthy (non-`None`, nonempty) `parent_path`
contains the parent-link text. -/
theorem node_page_has_parent (v : Int) (p : String) (d : Nat) (hp : p ≠ "") :
    containsSub (node_page_html v (some p) d) "Return to Parent" := by
  apply containsSub_of_decomp _ _
    (nodeSeg1 ++ ((toString v).data ++ (nodeSeg2 ++ ((dotSlashRep d).data ++
      ((cssSeg ++ nodeSeg3) ++ ((toString v).data ++ (nodeSeg4 ++
        (left_link_html.data ++ (spaceSeg ++
          (("<a class=\"circle-link\" href=\"").data ++ (p.data ++ ("\">").data)))))))))))
    (("</a>").data ++ (spaceSeg ++ (right_link_html.data ++ nodeSeg5)))
    (by decide)
  have hanchor : parent_link_html (some p) =
      "<a class=\"circle-link\" href=\"" ++ p ++ "\">Return to Parent</a>" := by
    show (if p = "" then "" else _) = _
    rw [if_neg hp]
  have hsplit : ("\">Return to Parent</a>").data =
      ("\">").data ++ (("Return to Parent").data ++ ("</a>").data) := by decide
  rw [node_page_decomp, hanchor]
  simp [String.data_append, hsplit, List.append_assoc]

/-- A node page rendered with `parent_path = "../index.html"` contains the
full parent anchor. -/
theorem node_page_has_parent_anchor (v : Int) (d : Nat) :
    containsSub (node_page_html v (some "../index.html") d) parent_anchor_html := by
  apply containsSub_of_decomp _ _
    (nodeSeg1 ++ ((toString v).data ++ (nodeSeg2 ++ ((dotSlashRep d).data ++
      ((cssSeg ++ nodeSeg3) ++ ((toString v).data ++ (nodeSeg4 ++
        (left_link_html.data ++ spaceSeg))))))))
    (spaceSeg ++ (right_link_html.data ++ nodeSeg5))
    (by decide)
  rw [node_page_decomp]
  have h : (parent_link_html (some "../index.html")).data = parent_anchor_html.data := by
    decide
  rw [h]
  simp [List.append_assoc]

/-- A null page rendered with `parent_path = "../index.html"` contains the
full parent anchor. -/
theorem null_page_has_parent_anchor (dir : String) :
    containsSub (null_page_html dir (some "../index.html")) parent_anchor_html := by
  apply containsSub_of_decomp _ _
    (nullSeg1 ++ ((dotSlashRep (sepCount dir)).data ++ (cssSeg ++
      ("\">\n</head>\n<body>\n    <h1 class=\"node-value\">null</h1>\n    <nav>\n        ").data)))
    (("\n    </nav>\n</body>\n</html>\n").data)
    (by decide)
  rw [null_page_decomp]
  have hs2 : nullSeg2 =
      ("\">\n</head>\n<body>\n    <h1 class=\"node-value\">null</h1>\n    <nav>\n        ").data ++
      ("<a class=\"circle-link\" href=\"").data := by decide
  have hs3 : nullSeg3 =
      ("\">Return to Parent</a>").data ++ ("\n    </nav>\n</body>\n</html>\n").data := by
    decide
  have hpa : parent_anchor_html.data =
      ("<a class=\"circle-link\" href=\"").data ++ (("../index.html").data ++
        ("\">Return to Parent</a>").data) := by decide
  rw [hs2, hs3, hpa]
  simp [pyStr, List.append_assoc]

/-- Every null page displays the null indicator. -/
theorem null_page_shows_null (dir : String) (pp : Option String) :
    containsSub (null_page_html dir pp) "<h1 class=\"node-value\">null</h1>" := by
  apply containsSub_of_decomp _ _
    (nullSeg1 ++ ((dotSlashRep (sepCount dir)).data ++ (cssSeg ++
      ("\">\n</head>\n<body>\n    ").data)))
    (("\n    <nav>\n        <a class=\"circle-link\" href=\"").data ++
      ((pyStr pp).data ++ nullSeg3))
    (by decide)
  rw [null_page_decomp]
  have hs2 : nullSeg2 =
      ("\">\n</head>\n<body>\n    ").data ++
      ((("<h1 class=\"node-value\">null</h1>").data) ++
        ("\n    <nav>\n        <a class=\"circle-link\" href=\"").data) := by decide
  rw [hs2]
  simp [List.append_assoc]

/-- A null page rendered with `parent_path = None` carries the literal string
`None` as the href of its parent anchor. -/
theorem null_page_none_href (dir : String) :
    containsSub (null_page_html dir none)
      "<a class=\"circle-link\" href=\"None\">Return to Parent</a>" := by
  apply containsSub_of_decomp _ _
    (nullSeg1 ++ ((dotSlashRep (sepCount dir)).data ++ (cssSeg ++
      ("\">\n</head>\n<body>\n    <h1 class=\"node-value\">null</h1>\n    <nav>\n        ").data)))
    (("\n    </nav>\n</body>\n</html>\n").data)
    (by decide)
  rw [null_page_decomp]
  have hs2 : nullSeg2 =
      ("\">\n</head>\n<body>\n    <h1 class=\"node-value\">null</h1>\n    <nav>\n        ").data ++
      ("<a class=\"circle-link\" href=\"").data := by decide
  have hs3 : nullSeg3 =
      ("\">Return to Parent</a>").data ++ ("\n    </nav>\n</body>\n</html>\n").data := by
    decide
  have hpa : ("<a class=\"circle-link\" href=\"None\">Return to Parent</a>").data =
      ("<a class=\"circle-link\" href=\"").data ++ (("None").data ++
        ("\">Return to Parent</a>").data) := by decide
  rw [hs2, hs3, hpa]
  simp [pyStr, List.append_assoc]

/-- A null page rendered with `parent_path = "../index.html"` contains
exactly one anchor: the parent link. -/
theorem null_page_one_anchor (dir : String) :
    countSub (null_page_html dir (some "../index.html")).data ("<a ").data = 1 := by
  rw [null_page_decomp]
  have hpat : ("<a ").data ≠ [] := by decide
  generalize sepCount dir = k
  cases k with
  | zero =>
    have h0 : (dotSlashRep 0).data = [] := rfl
    rw [h0, List.nil_append]
    decide
  | succ k =>
    have hdots : ∀ c ∈ (dotSlashRep (k + 1)).data, c ∉ ("<a ").data := by
      intro c hc
      rcases dotSlashRep_chars _ c hc with rfl | rfl <;> decide
    rw [countSub_sandwich _ _ _ _ hpat (dotSlashRep_succ_ne_nil k) hdots]
    decide

/-! ### Where a run's events live

Every event of `generate_tree_pages t dir pp d` touches a path at or below
`dir`, the left call's events all lie below `dir/left` and the right call's
below `dir/right`, and those two regions are disjoint. -/

/-- A directory string with no trailing separator and at least one
character (the entry point passes `"tree_site"`). -/
def goodDir (s : String) : Prop :=
  s.data ≠ [] ∧ s.data.getLast? ≠ some '/'

instance (s : String) : Decidable (goodDir s) := by
  unfold goodDir; infer_instance

/-- `p` is the directory `base` itself or lies below it. -/
def underDir (base p : String) : Prop :=
  p = base ∨ (base ++ "/").data <+: p.data

instance (base p : String) : Decidable (underDir base p) := by
  unfold underDir; infer_instance

theorem pjoin_of_good (a b : String) (ha : goodDir a) : pjoin a b = a ++ "/" ++ b := by
  unfold pjoin
  rw [if_neg ha.1, if_neg ha.2]

theorem goodDir_pjoin (a b : String) (ha : goodDir a) (hb : b.data ≠ [])
    (hlast : b.data.getLast? ≠ some '/') : goodDir (pjoin a b) := by
  rw [pjoin_of_good a b ha]
  constructor
  · simp only [String.data_append, ne_eq, List.append_eq_nil]
    intro h
    exact hb h.2
  · rw [String.data_append]
    rw [List.getLast?_append_of_ne_nil _ hb]
    exact hlast

theorem underDir_pjoin (base b : String) (hbase : goodDir base) :
    underDir base (pjoin base b) := by
  right
  rw [pjoin_of_good _ _ hbase, String.data_append]
  exact List.prefix_append _ _

theorem underDir_trans_pjoin (base b p : String) (hbase : goodDir base)
    (h : underDir (pjoin base b) p) : underDir base p := by
  rcases h with rfl | h
  · exact underDir_pjoin base b hbase
  · right
    refine List.IsPrefix.trans ?_ h
    have hdata : ((pjoin base b) ++ "/").data =
        (base ++ "/").data ++ (b.data ++ ("/").data) := by
      rw [pjoin_of_good _ _ hbase]
      simp [String.data_append, List.append_assoc]
    rw [hdata]
    exact List.prefix_append _ _

theorem events_under (t : Node) : ∀ (dir : String) (pp : Option String) (d : Nat),
    goodDir dir → ∀ e ∈ generate_tree_pages t dir pp d, underDir dir e.path := by
  induction t with
  | null =>
    intro dir pp d hdir e he
    simp only [generate_tree_pages, generate_null_page, List.mem_cons,
      List.not_mem_nil, or_false] at he
    rcases he with rfl | rfl
    · exact Or.inl rfl
    · exact underDir_pjoin dir "index.html" hdir
  | node v l r ihl ihr =>
    intro dir pp d hdir e he
    simp only [generate_tree_pages, generate_node_page, List.cons_append,
      List.nil_append, List.mem_cons, List.mem_append] at he
    rcases he with rfl | rfl | hl | hr
    · exact Or.inl rfl
    · exact underDir_pjoin dir "index.html" hdir
    · have hgood : goodDir (pjoin dir "left") :=
        goodDir_pjoin dir "left" hdir (by decide) (by decide)
      exact underDir_trans_pjoin dir "left" e.path hdir
        (ihl (pjoin dir "left") (some "../index.html") (d + 1) hgood e hl)
    · have hgood : goodDir (pjoin dir "right") :=
        goodDir_pjoin dir "right" hdir (by decide) (by decide)
      exact underDir_trans_pjoin dir "right" e.path hdir
        (ihr (pjoin dir "right") (some "../index.html") (d + 1) hgood e hr)

theorem prefix_append_cancel (x y z : List Char) (h : x ++ y <+: x ++ z) : y <+: z := by
  obtain ⟨t, ht⟩ := h
  rw [List.append_assoc] at ht
  exact ⟨t, List.append_cancel_left ht⟩

/-- No path lies both below `dir/left` and below `dir/right`. -/
theorem underDir_left_right_disjoint (dir p : String) (hdir : goodDir dir) :
    ¬ (underDir (pjoin dir "left") p ∧ underDir (pjoin dir "right") p) := by
  rintro ⟨h1, h2⟩
  rw [pjoin_of_good _ _ hdir] at h1 h2
  have hld : (dir ++ "/" ++ "left").data = (dir ++ "/").data ++ ("left").data := by
    simp [String.data_append]
  have hrd : (dir ++ "/" ++ "right").data = (dir ++ "/").data ++ ("right").data := by
    simp [String.data_append]
  have hlsd : (dir ++ "/" ++ "left" ++ "/").data = (dir ++ "/").data ++ ("left/").data := by
    simp [String.data_append]
  have hrsd : (dir ++ "/" ++ "right" ++ "/").data = (dir ++ "/").data ++ ("right/").data := by
    simp [String.data_append]
  rcases h1 with h1 | h1
  · rcases h2 with h2 | h2
    · -- p equals both dir/left and dir/right
      rw [h1] at h2
      have hd := congrArg String.data h2
      rw [hld, hrd] at hd
      exact absurd (List.append_cancel_left hd) (by decide)
    · -- dir/right/ is a prefix of p = dir/left: too long
      rw [h1] at h2
      rw [hrsd, hld] at h2
      have hlen := h2.length_le
      simp at hlen
  · rcases h2 with h2 | h2
    · -- dir/left/ is a prefix of p = dir/right: equal lengths force equality
      rw [h2] at h1
      rw [hlsd, hrd] at h1
      have hlen : ((dir ++ "/").data ++ ("left/").data).length =
          ((dir ++ "/").data ++ ("right").data).length := by
        simp
      have heq := List.IsPrefix.eq_of_length h1 hlen
      exact absurd (List.append_cancel_left heq) (by decide)
    · -- both dir/left/ and dir/right/ are prefixes of p: comparable
      rw [hlsd] at h1
      rw [hrsd] at h2
      have hcmp : (dir ++ "/").data ++ ("left/").data <+:
          (dir ++ "/").data ++ ("right/").data :=
        List.prefix_of_prefix_length_le h1 h2 (by simp)
      exact absurd (prefix_append_cancel _ _ _ hcmp) (by decide)

theorem realPaths_follow (t : Node) : ∀ q ∈ realPaths t,
    ∃ v l r, follow t q = .node v l r := by
  induction t with
  | null =>
    intro q hq
    simp [realPaths] at hq
  | node v l r ihl ihr =>
    intro q hq
    simp only [realPaths, List.mem_cons, List.mem_append, List.mem_map] at hq
    rcases hq with rfl | ⟨q2, hq2, rfl⟩ | ⟨q2, hq2, rfl⟩
    · exact ⟨v, l, r, rfl⟩
    · exact ihl q2 hq2
    · exact ihr q2 hq2

/-- The events of the recursive call at any real position form a contiguous
segment of the whole run. -/
theorem gen_subseg (q : List Move) : ∀ (t : Node) (root : String)
    (pp : Option String) (d : Nat), q ∈ realPaths t →
    ∃ A B, generate_tree_pages t root pp d =
      A ++ (generate_tree_pages (follow t q) (dirAt root q) (pAt q pp) (d + q.length) ++ B) := by
  induction q with
  | nil =>
    intro t root pp d _
    refine ⟨[], [], ?_⟩
    simp [follow, dirAt_nil, pAt]
  | cons m q ih =>
    intro t root pp d hq
    cases t with
    | null => simp [realPaths] at hq
    | node v l r =>
      simp only [realPaths, List.mem_cons, List.mem_append, List.mem_map] at hq
      rcases hq with h0 | ⟨q2, hq2, heq⟩ | ⟨q2, hq2, heq⟩
      · exact absurd h0 (by simp)
      · injection heq with hm hq3
        subst hm
        subst hq3
        obtain ⟨A, B, hAB⟩ := ih l (pjoin root "left") (some "../index.html") (d + 1) hq2
        rw [pAt_deep] at hAB
        have hd : d + 1 + q2.length = d + (q2.length + 1) := by omega
        rw [hd] at hAB
        refine ⟨FsEvent.mkdir root :: generate_node_page v pp root d :: A,
          B ++ generate_tree_pages r (pjoin root "right") (some "../index.html") (d + 1), ?_⟩
        have hdef : generate_tree_pages (.node v l r) root pp d =
            [ FsEvent.mkdir root, generate_node_page v pp root d] ++
            generate_tree_pages l (pjoin root "left") (some "../index.html") (d + 1) ++
            generate_tree_pages r (pjoin root "right") (some "../index.html") (d + 1) := rfl
        rw [hdef, hAB]
        simp [List.append_assoc, follow, dirAt_cons, pAt, Move.dirname, List.length_cons]
      · injection heq with hm hq3
        subst hm
        subst hq3
        obtain ⟨A, B, hAB⟩ := ih r (pjoin root "right") (some "../index.html") (d + 1) hq2
        rw [pAt_deep] at hAB
        have hd : d + 1 + q2.length = d + (q2.length + 1) := by omega
        rw [hd] at hAB
        refine ⟨(FsEvent.mkdir root :: generate_node_page v pp root d ::
          generate_tree_pages l (pjoin root "left") (some "../index.html") (d + 1)) ++ A,
          B, ?_⟩
        have hdef : generate_tree_pages (.node v l r) root pp d =
            [ FsEvent.mkdir root, generate_node_page v pp root d] ++
            generate_tree_pages l (pjoin root "left") (some "../index.html") (d + 1) ++
            generate_tree_pages r (pjoin root "right") (some "../index.html") (d + 1) := rfl
        rw [hdef, hAB]
        simp [List.append_assoc, follow, dirAt_cons, pAt, Move.dirname, List.length_cons]

/-! ### Resolving relative links

`resolveRel dir rel` follows a relative link `rel` from directory `dir` the
way a browser resolves it: each leading `"../"` discards the last path
component of `dir`, and the remainder is joined onto what is left. -/

/-- Strip the final path component of `s` together with its separator
(everything from the last `/` on; all of `s` if it has no separator). -/
def dropLastComp (s : String) : String :=
  String.mk (((s.data.reverse.dropWhile (· ≠ '/')).drop 1).reverse)

def resolveRelAux : String → List Char → String
  | dir, '.' :: '.' :: '/' :: rest => resolveRelAux (dropLastComp dir) rest
  | dir, rest => pjoin dir (String.mk rest)

def resolveRel (dir rel : String) : String :=
  resolveRelAux dir rel.data

theorem resolveRel_up (dir : String) :
    resolveRel dir "../index.html" = pjoin (dropLastComp dir) "index.html" :=
  rfl

/-- Dropping the last component undoes `pjoin` with a separator-free,
nonempty name, provided the base has no trailing separator. -/
theorem dropLastComp_pjoin (a b : String) (ha : a.data.getLast? ≠ some '/')
    (hbs : ∀ c ∈ b.data, c ≠ '/') :
    dropLastComp (pjoin a b) = a := by
  have hdropb : b.data.reverse.dropWhile (· ≠ '/') = [] := by
    rw [List.dropWhile_eq_nil_iff]
    intro c hc
    simpa using hbs c (List.mem_reverse.mp hc)
  unfold pjoin
  rcases Classical.em (a.data = []) with hanil | hanil
  · rw [if_pos hanil]
    unfold dropLastComp
    rw [hdropb]
    cases a with
    | mk da =>
      simp only [String.data] at hanil
      subst hanil
      rfl
  · rw [if_neg hanil, if_neg ha]
    unfold dropLastComp
    have hdata : ((a ++ "/" ++ b)).data = (a.data ++ [ '/']) ++ b.data := by
      simp [String.data_append]
    rw [hdata, List.reverse_append, List.reverse_append]
    simp only [List.reverse_cons, List.reverse_nil, List.nil_append]
    rw [List.dropWhile_append]
    rw [hdropb]
    simp only [List.isEmpty_nil, if_true]
    rw [List.singleton_append]
    have hstep : List.dropWhile (fun c => c ≠ '/') ('/' :: a.data.reverse) =
        '/' :: a.data.reverse := by
      rw [List.dropWhile_cons_of_neg]
      simp
    rw [hstep]
    simp only [List.drop_one, List.tail_cons, List.reverse_reverse]

/-- Resolving the `"../index.html"` parent link from `pjoin D name` lands on
`D`'s own `index.html`, for the child names this program uses. -/
theorem resolveRel_parent (D : String) (m : Move)
    (hD : D.data.getLast? ≠ some '/') :
    resolveRel (pjoin D m.dirname) "../index.html" = pjoin D "index.html" := by
  rw [resolveRel_up, dropLastComp_pjoin D m.dirname hD (by cases m <;> decide)]

/-- `pjoin` never creates a trailing separator when the joined name has
none. -/
theorem pjoin_no_trailing (a b : String) (hb : b.data ≠ [])
    (hbl : b.data.getLast? ≠ some '/') :
    (pjoin a b).data.getLast? ≠ some '/' := by
  unfold pjoin
  split
  · exact hbl
  · split
    · rw [String.data_append, List.getLast?_append_of_ne_nil _ hb]
      exact hbl
    · rw [String.data_append, List.getLast?_append_of_ne_nil _ hb]
      exact hbl

/-- Positions' directories never acquire a trailing separator. -/
theorem dirAt_no_trailing (q : List Move) : ∀ (root : String),
    root.data.getLast? ≠ some '/' → (dirAt root q).data.getLast? ≠ some '/' := by
  induction q with
  | nil =>
    intro root hroot
    exact hroot
  | cons m q ih =>
    intro root hroot
    rw [dirAt_cons]
    apply ih
    apply pjoin_no_trailing
    · cases m <;> decide
    · cases m <;> decide

theorem goodDir_dirAt (q : List Move) (root : String) (hroot : goodDir root) :
    goodDir (dirAt root q) := by
  cases q with
  | nil => exact hroot
  | cons m q =>
    constructor
    · -- nonempty: dirAt of a cons is a pjoin chain over a good root
      rw [dirAt_cons]
      have : ∀ (q2 : List Move) (base : String), goodDir base →
          (dirAt base q2).data ≠ [] := by
        intro q2
        induction q2 with
        | nil => exact fun base hbase => hbase.1
        | cons m2 q3 ih =>
          intro base hbase
          rw [dirAt_cons]
          exact ih _ (goodDir_pjoin base m2.dirname hbase
            (by cases m2 <;> decide) (by cases m2 <;> decide))
      exact this q (pjoin root m.dirname)
        (goodDir_pjoin root m.dirname hroot
          (by cases m <;> decide) (by cases m <;> decide))
    · exact dirAt_no_trailing (m :: q) root hroot.2

/-! ### The filesystem after a run

For determinism we interpret the event list against a file state (a map
from path to optional content): `mkdir` leaves files unchanged, `write`
replaces the content at its path. -/

def FileState := String → Option String

def applyEvent (s : FileState) (e : FsEvent) : FileState :=
  match e with
  | .mkdir _ => s
  | .write p c => fun q => if q = p then some c else s q

def applyEvents (evs : List FsEvent) (s : FileState) : FileState :=
  evs.foldl applyEvent s

/-- The content of the last write to `p` in `evs`, if any. -/
def lastWrite : List FsEvent → String → Option String
  | [], _ => none
  | e :: evs, p =>
    match lastWrite evs p with
    | some c => some c
    | none =>
      match e with
      | .write p2 c => if p = p2 then some c else none
      | .mkdir _ => none

theorem lastWrite_cons (e : FsEvent) (evs : List FsEvent) (p : String) :
    lastWrite (e :: evs) p =
      match lastWrite evs p with
      | some c => some c
      | none =>
        match e with
        | .write p2 c => if p = p2 then some c else none
        | .mkdir _ => none :=
  rfl

/-- A run's final content at `p` is the last write to `p`, or the initial
content if `p` was never written. -/
theorem applyEvents_eq_lastWrite (evs : List FsEvent) : ∀ (s : FileState) (p : String),
    applyEvents evs s p = match lastWrite evs p with
      | some c => some c
      | none => s p := by
  induction evs with
  | nil =>
    intro s p
    rfl
  | cons e evs ih =>
    intro s p
    have hstep : applyEvents (e :: evs) s p = applyEvents evs (applyEvent s e) p := rfl
    rw [hstep, ih]
    cases e with
    | mkdir p2 =>
      have h1 : lastWrite (FsEvent.mkdir p2 :: evs) p = lastWrite evs p := by
        rw [lastWrite_cons]
        cases lastWrite evs p <;> rfl
      rw [h1]
      cases lastWrite evs p <;> rfl
    | write p2 c =>
      cases hlw : lastWrite evs p with
      | some c2 =>
        have h1 : lastWrite (FsEvent.write p2 c :: evs) p = some c2 := by
          rw [lastWrite_cons, hlw]
        rw [h1]
      | none =>
        have h1 : lastWrite (FsEvent.write p2 c :: evs) p =
            if p = p2 then some c else none := by
          rw [lastWrite_cons, hlw]
        rw [h1]
        by_cases hp : p = p2
        · subst hp
          simp [applyEvent]
        · simp [applyEvent, hp]

/-! ### Recursion depth -/

/-- The nesting depth of recursive calls `generate_tree_pages` makes below a
call on this argument: a call on `None` makes none, a call on a node always
recurses into both child slots. -/
def callDepth : Node → Nat
  | .null => 0
  | .node _ l r => 1 + max (callDepth l) (callDepth r)

/-- The height of a tree: edges on the longest root-to-node path (a leaf has
height 0). -/
def height : Node → Nat
  | .null => 0
  | .node _ .null .null => 0
  | .node _ l r => 1 + max (height l) (height r)

theorem callDepth_eq_height_succ : ∀ (v : Int) (l r : Node),
    callDepth (.node v l r) = height (.node v l r) + 1 := by
  have main : ∀ t : Node, callDepth t =
      (match t with | .null => 0 | .node v l r => height (.node v l r) + 1) := by
    intro t
    induction t with
    | null => rfl
    | node v l r ihl ihr =>
      show 1 + max (callDepth l) (callDepth r) = height (.node v l r) + 1
      cases l with
      | null =>
        cases r with
        | null => rfl
        | node v2 l2 r2 =>
          have h1 : callDepth (Node.node v2 l2 r2) = height (Node.node v2 l2 r2) + 1 := ihr
          have h2 : height (Node.node v Node.null (Node.node v2 l2 r2)) =
              1 + max (height Node.null) (height (Node.node v2 l2 r2)) := rfl
          have h3 : callDepth Node.null = 0 := rfl
          have h4 : height Node.null = 0 := rfl
          rw [h1, h2, h3, h4]
          omega
      | node v2 l2 r2 =>
        have h1 : callDepth (Node.node v2 l2 r2) = height (Node.node v2 l2 r2) + 1 := ihl
        cases r with
        | null =>
          have h2 : height (Node.node v (Node.node v2 l2 r2) Node.null) =
              1 + max (height (Node.node v2 l2 r2)) (height Node.null) := rfl
          have h3 : callDepth Node.null = 0 := rfl
          have h4 : height Node.null = 0 := rfl
          rw [h1, h2, h3, h4]
          omega
        | node v3 l3 r3 =>
          have h2 : height (Node.node v (Node.node v2 l2 r2) (Node.node v3 l3 r3)) =
              1 + max (height (Node.node v2 l2 r2)) (height (Node.node v3 l3 r3)) := rfl
          have h5 : callDepth (Node.node v3 l3 r3) = height (Node.node v3 l3 r3) + 1 := ihr
          rw [h1, h2, h5]
          omega
  intro v l r
  exact main (.node v l r)

/-! ### Bridge lemmas for the claims -/

theorem write_mem_iff (evs : List FsEvent) (p c : String) :
    (p, c) ∈ writesOf evs ↔ FsEvent.write p c ∈ evs := by
  unfold writesOf
  rw [List.mem_filterMap]
  constructor
  · rintro ⟨e, he, heq⟩
    cases e with
    | mkdir p2 => simp at heq
    | write p2 c2 =>
      simp only [Option.some_inj, Prod.mk.injEq] at heq
      rw [← heq.1, ← heq.2]
      exact he
  · intro h
    exact ⟨FsEvent.write p c, h, rfl⟩

/-- The page of every visited position is written by the run. -/
theorem pos_write_mem (t : Node) (root : String) (pp : Option String) (d : Nat)
    (q : List Move) (hq : q ∈ genPositions t) :
    FsEvent.write (pjoin (dirAt root q) "index.html") (pageContentAt t pp d root q) ∈
      generate_tree_pages t root pp d := by
  have h := writesOf_gen t root pp d
  have hmem : (pjoin (dirAt root q) "index.html", pageContentAt t pp d root q) ∈
      writesOf (generate_tree_pages t root pp d) := by
    rw [h]
    exact List.mem_map_of_mem _ hq
  exact (write_mem_iff _ _ _).mp hmem

theorem nullPaths_mem_genPositions (t : Node) (q : List Move)
    (hq : q ∈ nullPaths t) : q ∈ genPositions t :=
  (genPositions_perm t).mem_iff.mpr (List.mem_append.mpr (Or.inr hq))

theorem realPaths_mem_genPositions (t : Node) (q : List Move)
    (hq : q ∈ realPaths t) : q ∈ genPositions t :=
  (genPositions_perm t).mem_iff.mpr (List.mem_append.mpr (Or.inl hq))

theorem nullPaths_follow (t : Node) : ∀ q ∈ nullPaths t, follow t q = .null := by
  induction t with
  | null =>
    intro q hq
    simp only [nullPaths, List.mem_singleton] at hq
    subst hq
    rfl
  | node v l r ihl ihr =>
    intro q hq
    simp only [nullPaths, List.mem_append, List.mem_map] at hq
    rcases hq with ⟨q2, hq2, rfl⟩ | ⟨q2, hq2, rfl⟩
    · exact ihl q2 hq2
    · exact ihr q2 hq2

theorem nullPaths_node_ne_nil (v : Int) (l r : Node) (q : List Move)
    (hq : q ∈ nullPaths (.node v l r)) : q ≠ [] := by
  simp only [nullPaths, List.mem_append, List.mem_map] at hq
  rcases hq with ⟨q2, -, rfl⟩ | ⟨q2, -, rfl⟩ <;> simp

theorem pAt_of_ne_nil (q : List Move) (pp : Option String) (h : q ≠ []) :
    pAt q pp = some "../index.html" := by
  cases q with
  | nil => exact absurd rfl h
  | cons m q2 => rfl

theorem nil_mem_genPositions (t : Node) : [] ∈ genPositions t := by
  cases t <;> simp [genPositions]

theorem dropLast_mem_genPositions (t : Node) : ∀ q ∈ genPositions t,
    q.dropLast ∈ genPositions t := by
  induction t with
  | null =>
    intro q hq
    simp only [genPositions, List.mem_singleton] at hq
    subst hq
    simp [genPositions]
  | node v l r ihl ihr =>
    intro q hq
    simp only [genPositions, List.mem_cons, List.mem_append, List.mem_map] at hq
    rcases hq with rfl | ⟨q2, hq2, rfl⟩ | ⟨q2, hq2, rfl⟩
    · exact nil_mem_genPositions _
    · cases q2 with
      | nil => exact nil_mem_genPositions _
      | cons m q3 =>
        have hdl : (Move.left :: m :: q3).dropLast = Move.left :: (m :: q3).dropLast := rfl
        rw [hdl]
        simp only [genPositions, List.mem_cons, List.mem_append, List.mem_map]
        exact Or.inr (Or.inl ⟨(m :: q3).dropLast, ihl _ hq2, rfl⟩)
    · cases q2 with
      | nil => exact nil_mem_genPositions _
      | cons m q3 =>
        have hdl : (Move.right :: m :: q3).dropLast = Move.right :: (m :: q3).dropLast := rfl
        rw [hdl]
        simp only [genPositions, List.mem_cons, List.mem_append, List.mem_map]
        exact Or.inr (Or.inr ⟨(m :: q3).dropLast, ihr _ hq2, rfl⟩)

theorem dirAt_append_singleton (root : String) (q : List Move) (m : Move) :
    dirAt root (q ++ [ m]) = pjoin (dirAt root q) m.dirname := by
  simp [dirAt, List.foldl_append]

/-- Python truthiness of the `parent_path` argument: `None` and `""` are
falsy, every other string is truthy. -/
def truthy (pp : Option String) : Prop :=
  pp ≠ none ∧ pp ≠ some ""

/-! ### The claims -/

/-- Claim C1: in a run started at the public interface (`parent_path = None`),
every non-root position's page carries the parent link `../index.html`
(always the value the code passes for both children), which, resolved from
the position's own output directory, reaches exactly the `index.html`
generated one level up the same path — a page the same run writes; the
parent link is absent only at the root, whose page is rendered with
`parent_path = None`. -/
theorem claim_C1 (t : Node) (root : String) (hroot : goodDir root) :
    (∀ q ∈ genPositions t, q ≠ [] →
      FsEvent.write (pjoin (dirAt root q) "index.html")
          (pageContentAt t none 0 root q) ∈
        generate_tree_pages t root none 0 ∧
      containsSub (pageContentAt t none 0 root q) parent_anchor_html ∧
      FsEvent.write (pjoin (dirAt root q.dropLast) "index.html")
          (pageContentAt t none 0 root q.dropLast) ∈
        generate_tree_pages t root none 0 ∧
      resolveRel (dirAt root q) "../index.html" =
        pjoin (dirAt root q.dropLast) "index.html") ∧
    (∀ v l r, t = .node v l r →
      ¬ containsSub (pageContentAt t none 0 root []) "Return to Parent") := by
  constructor
  · intro q hq hne
    refine ⟨pos_write_mem t root none 0 q hq, ?_, ?_, ?_⟩
    · have hpAt : pAt q none = some "../index.html" := pAt_of_ne_nil q none hne
      unfold pageContentAt
      cases hfol : follow t q with
      | null =>
        rw [hpAt]
        exact null_page_has_parent_anchor (dirAt root q)
      | node v2 l2 r2 =>
        rw [hpAt]
        exact node_page_has_parent_anchor v2 (0 + q.length)
    · exact pos_write_mem t root none 0 q.dropLast (dropLast_mem_genPositions t q hq)
    · have hq2 : q = q.dropLast ++ [ q.getLast hne] :=
        (List.dropLast_append_getLast hne).symm
      have hdir : dirAt root q = pjoin (dirAt root q.dropLast) (q.getLast hne).dirname := by
        conv_lhs => rw [hq2]
        rw [dirAt_append_singleton]
      rw [hdir]
      exact resolveRel_parent (dirAt root q.dropLast) (q.getLast hne)
        (dirAt_no_trailing q.dropLast root hroot.2)
  · rintro v l r rfl
    rw [pageContentAt_nil_node]
    exact node_page_no_parent v none 0 rfl

/-- Witness for C1: the sample tree generated into `tree_site`, at the
non-root position `right` and at the root. -/
theorem claim_C1_witness :
    (FsEvent.write (pjoin (dirAt "tree_site" [ Move.right]) "index.html")
        (pageContentAt build_example_tree none 0 "tree_site" [ Move.right]) ∈
      generate_tree_pages build_example_tree "tree_site" none 0 ∧
    containsSub (pageContentAt build_example_tree none 0 "tree_site" [ Move.right])
      parent_anchor_html ∧
    FsEvent.write (pjoin (dirAt "tree_site" ([ Move.right] : List Move).dropLast) "index.html")
        (pageContentAt build_example_tree none 0 "tree_site"
          ([ Move.right] : List Move).dropLast) ∈
      generate_tree_pages build_example_tree "tree_site" none 0 ∧
    resolveRel (dirAt "tree_site" [ Move.right]) "../index.html" =
      pjoin (dirAt "tree_site" ([ Move.right] : List Move).dropLast) "index.html") ∧
    ¬ containsSub (pageContentAt build_example_tree none 0 "tree_site" [])
      "Return to Parent" := by
  constructor
  · exact (claim_C1 build_example_tree "tree_site" (by decide)).1
      [ Move.right] (by decide) (by decide)
  · exact (claim_C1 build_example_tree "tree_site" (by decide)).2 _ _ _ rfl

/-- Claim C2 (code bug): at the failing input — a single-node tree generated
into the output root `"a/b"` — the null page for the missing left child sits
at depth 1, so the claim requires its stylesheet reference to be
`get_css_path 1 = "../styles.css"`; the page the code writes references
`../../styles.css` instead (it derives the css path from the separator count
of the output directory, line 104), and does not reference
`../styles.css`. -/
theorem claim_C2_failing :
    FsEvent.write "a/b/left/index.html"
        (null_page_html "a/b/left" (some "../index.html")) ∈
      generate_tree_pages (.node 1 .null .null) "a/b" none 0 ∧
    get_css_path 1 = "../styles.css" ∧
    containsSub (null_page_html "a/b/left" (some "../index.html"))
      "href=\"../../styles.css\"" ∧
    ¬ containsSub (null_page_html "a/b/left" (some "../index.html"))
      "href=\"../styles.css\"" := by
  exact ⟨by decide, by decide, by decide, by decide⟩

/-- Claim C3: the directories a run creates are exactly one per visited
position (in traversal order), the visited positions are exactly the
root-to-node paths plus one null position past each missing child slot
(recursion stops at null markers: they have no descendants), and the pages
written are exactly one `index.html` per created directory. -/
theorem claim_C3 (t : Node) (root : String) (pp : Option String) (d : Nat) :
    mkdirsOf (generate_tree_pages t root pp d) = (genPositions t).map (dirAt root) ∧
    (genPositions t).Perm (realPaths t ++ nullPaths t) ∧
    (writesOf (generate_tree_pages t root pp d)).map Prod.fst =
      (genPositions t).map (fun q => pjoin (dirAt root q) "index.html") := by
  refine ⟨mkdirsOf_gen t root pp d, genPositions_perm t, ?_⟩
  rw [writesOf_gen t root pp d, List.map_map]
  rfl

/-- Claim C4 (counterexample): the root of the single-node tree has no
children, yet the page the run writes for it contains both the Left and the
Right link — refuting "a Left link iff the left child is present". -/
theorem claim_C4_counterexample :
    FsEvent.write "tree_site/index.html" (node_page_html 5 none 0) ∈
      generate_tree_pages (.node 5 .null .null) "tree_site" none 0 ∧
    containsSub (node_page_html 5 none 0) left_link_html ∧
    containsSub (node_page_html 5 none 0) right_link_html := by
  exact ⟨by decide, by decide, by decide⟩

/-- Claim C4 (amended): the rendered node page always contains the Left link
(`left/index.html`) and the Right link (`right/index.html`), regardless of
which children are present (they point at the child-or-null page the run
generates there), and contains a parent link iff `parentLink` is truthy
(present and nonempty). -/
theorem claim_C4 (v : Int) (pp : Option String) (d : Nat) :
    containsSub (node_page_html v pp d) left_link_html ∧
    containsSub (node_page_html v pp d) right_link_html ∧
    (containsSub (node_page_html v pp d) "Return to Parent" ↔ truthy pp) := by
  refine ⟨node_page_has_left v pp d, node_page_has_right v pp d, ?_, ?_⟩
  · intro h
    by_contra hnt
    have hpl : parent_link_html pp = "" := by
      cases pp with
      | none => rfl
      | some s =>
        rcases Classical.em (s = "") with rfl | hs
        · rfl
        · exact absurd ⟨by simp, by simp [hs]⟩ hnt
    exact node_page_no_parent v pp d hpl h
  · intro ht
    cases pp with
    | none => exact absurd rfl ht.1
    | some s =>
      have hs : s ≠ "" := fun h => ht.2 (by rw [h])
      exact node_page_has_parent v s d hs

/-- Claim C5: in a run on a real-rooted tree, every null-marker position's
page is written with parent link `"../index.html"` (null markers are never
the root, so the parent link is always present), shows the null indicator,
and its navigation holds exactly one anchor — the parent link. -/
theorem claim_C5 (v : Int) (l r : Node) (root : String) (pp : Option String)
    (d : Nat) (q : List Move) (hq : q ∈ nullPaths (.node v l r)) :
    FsEvent.write (pjoin (dirAt root q) "index.html")
        (null_page_html (dirAt root q) (some "../index.html")) ∈
      generate_tree_pages (.node v l r) root pp d ∧
    containsSub (null_page_html (dirAt root q) (some "../index.html"))
      "<h1 class=\"node-value\">null</h1>" ∧
    containsSub (null_page_html (dirAt root q) (some "../index.html"))
      parent_anchor_html ∧
    countSub (null_page_html (dirAt root q) (some "../index.html")).data
      ("<a ").data = 1 := by
  have hgen : q ∈ genPositions (.node v l r) := nullPaths_mem_genPositions _ q hq
  have hfol : follow (.node v l r) q = .null := nullPaths_follow _ q hq
  have hne : q ≠ [] := nullPaths_node_ne_nil v l r q hq
  have hcontent : pageContentAt (.node v l r) pp d root q =
      null_page_html (dirAt root q) (some "../index.html") := by
    unfold pageContentAt
    rw [hfol, pAt_of_ne_nil q pp hne]
  refine ⟨?_, null_page_shows_null _ _, null_page_has_parent_anchor _,
    null_page_one_anchor _⟩
  have h := pos_write_mem (.node v l r) root pp d q hgen
  rw [hcontent] at h
  exact h

/-- Witness for C5: the spec's concrete scenario tree (values 10, 5, 15, 2,
7, 20; `root.right.left` absent) generated into `tree_site`: the null page
at position `right/left`. -/
theorem claim_C5_witness :
    FsEvent.write (pjoin (dirAt "tree_site" [ Move.right, Move.left]) "index.html")
        (null_page_html (dirAt "tree_site" [ Move.right, Move.left])
          (some "../index.html")) ∈
      generate_tree_pages
        (.node 10 (.node 5 (.node 2 .null .null) (.node 7 .null .null))
          (.node 15 .null (.node 20 .null .null))) "tree_site" none 0 ∧
    containsSub (null_page_html (dirAt "tree_site" [ Move.right, Move.left])
        (some "../index.html"))
      "<h1 class=\"node-value\">null</h1>" ∧
    containsSub (null_page_html (dirAt "tree_site" [ Move.right, Move.left])
        (some "../index.html"))
      parent_anchor_html ∧
    countSub (null_page_html (dirAt "tree_site" [ Move.right, Move.left])
        (some "../index.html")).data ("<a ").data = 1 :=
  claim_C5 10 (.node 5 (.node 2 .null .null) (.node 7 .null .null))
    (.node 15 .null (.node 20 .null .null)) "tree_site" none 0
    [ Move.right, Move.left] (by decide)

/-- Claim C6: at every real node of the tree, the run's event list contains,
contiguously: the node's own directory and page, then the entire left-child
call, then the entire right-child call; every event of the left call touches
a path under the node's `left` subdirectory, every event of the right call a
path under `right`, and no path is under both — so the left subtree is fully
materialized before any directory or page of the right subtree. -/
theorem claim_C6 (t : Node) (root : String) (pp : Option String) (d : Nat)
    (q : List Move) (hroot : goodDir root) (hq : q ∈ realPaths t) :
    ∃ v l r A B,
      follow t q = .node v l r ∧
      generate_tree_pages t root pp d =
        A ++ ((FsEvent.mkdir (dirAt root q) ::
          generate_node_page v (pAt q pp) (dirAt root q) (d + q.length) ::
          (generate_tree_pages l (pjoin (dirAt root q) "left")
              (some "../index.html") (d + q.length + 1) ++
           generate_tree_pages r (pjoin (dirAt root q) "right")
              (some "../index.html") (d + q.length + 1))) ++ B) ∧
      (∀ e ∈ generate_tree_pages l (pjoin (dirAt root q) "left")
          (some "../index.html") (d + q.length + 1),
        underDir (pjoin (dirAt root q) "left") e.path) ∧
      (∀ e ∈ generate_tree_pages r (pjoin (dirAt root q) "right")
          (some "../index.html") (d + q.length + 1),
        underDir (pjoin (dirAt root q) "right") e.path) ∧
      (∀ p, ¬ (underDir (pjoin (dirAt root q) "left") p ∧
        underDir (pjoin (dirAt root q) "right") p)) := by
  obtain ⟨v, l, r, hfol⟩ := realPaths_follow t q hq
  obtain ⟨A, B, hAB⟩ := gen_subseg q t root pp d hq
  rw [hfol] at hAB
  have hgood : goodDir (dirAt root q) := goodDir_dirAt q root hroot
  refine ⟨v, l, r, A, B, hfol, ?_, ?_, ?_, ?_⟩
  · rw [hAB]
    rfl
  · intro e he
    exact events_under l (pjoin (dirAt root q) "left") (some "../index.html")
      (d + q.length + 1)
      (goodDir_pjoin _ "left" hgood (by decide) (by decide)) e he
  · intro e he
    exact events_under r (pjoin (dirAt root q) "right") (some "../index.html")
      (d + q.length + 1)
      (goodDir_pjoin _ "right" hgood (by decide) (by decide)) e he
  · intro p
    exact underDir_left_right_disjoint (dirAt root q) p hgood

/-- Witness for C6: the sample tree generated into `tree_site`, at its root
position. -/
theorem claim_C6_witness :
    ∃ v l r A B,
      follow build_example_tree [] = .node v l r ∧
      generate_tree_pages build_example_tree "tree_site" none 0 =
        A ++ ((FsEvent.mkdir (dirAt "tree_site" []) ::
          generate_node_page v (pAt [] none) (dirAt "tree_site" [])
            (0 + List.length ([] : List Move)) ::
          (generate_tree_pages l (pjoin (dirAt "tree_site" []) "left")
              (some "../index.html") (0 + List.length ([] : List Move) + 1) ++
           generate_tree_pages r (pjoin (dirAt "tree_site" []) "right")
              (some "../index.html") (0 + List.length ([] : List Move) + 1))) ++ B) ∧
      (∀ e ∈ generate_tree_pages l (pjoin (dirAt "tree_site" []) "left")
          (some "../index.html") (0 + List.length ([] : List Move) + 1),
        underDir (pjoin (dirAt "tree_site" []) "left") e.path) ∧
      (∀ e ∈ generate_tree_pages r (pjoin (dirAt "tree_site" []) "right")
          (some "../index.html") (0 + List.length ([] : List Move) + 1),
        underDir (pjoin (dirAt "tree_site" []) "right") e.path) ∧
      (∀ p, ¬ (underDir (pjoin (dirAt "tree_site" []) "left") p ∧
        underDir (pjoin (dirAt "tree_site" []) "right") p)) :=
  claim_C6 build_example_tree "tree_site" none 0 [] (by decide) (by decide)

/-- Claim C7: generation is deterministic — interpreting the (single,
input-determined) event list of a run against any two freshly cleared
initial file states (no file anywhere under the output root) produces
identical files at every path under the output root. -/
theorem claim_C7 (t : Node) (root : String) (s1 s2 : FileState)
    (h1 : ∀ p, underDir root p → s1 p = none)
    (h2 : ∀ p, underDir root p → s2 p = none) :
    ∀ p, underDir root p →
      applyEvents (generate_tree_pages t root none 0) s1 p =
      applyEvents (generate_tree_pages t root none 0) s2 p := by
  intro p hp
  rw [applyEvents_eq_lastWrite, applyEvents_eq_lastWrite]
  cases lastWrite (generate_tree_pages t root none 0) p with
  | some c => rfl
  | none => rw [h1 p hp, h2 p hp]

/-- Witness for C7: the sample tree into `tree_site`, with an empty initial
state and one that holds an unrelated file. -/
theorem claim_C7_witness :
    applyEvents (generate_tree_pages build_example_tree "tree_site" none 0)
        (fun _ => none) "tree_site/index.html" =
      applyEvents (generate_tree_pages build_example_tree "tree_site" none 0)
        (fun p => if p = "other" then some "data" else none) "tree_site/index.html" :=
  claim_C7 build_example_tree "tree_site" (fun _ => none)
    (fun p => if p = "other" then some "data" else none)
    (fun _ _ => rfl)
    (fun p hp => by
      have hne : p ≠ "other" := by
        intro h
        subst h
        rcases hp with h | h
        · exact absurd h (by decide)
        · exact absurd h (by decide)
      simp [hne])
    "tree_site/index.html" (by decide)

/-- Claim C8 (counterexample): a single-node tree yields three directories,
not one, and its page does contain a Left link. -/
theorem claim_C8_counterexample :
    (mkdirsOf (generate_tree_pages (.node 7 .null .null) "tree_site" none 0)).length = 3 ∧
    FsEvent.write "tree_site/index.html" (node_page_html 7 none 0) ∈
      generate_tree_pages (.node 7 .null .null) "tree_site" none 0 ∧
    containsSub (node_page_html 7 none 0) left_link_html := by
  exact ⟨by decide, by decide, by decide⟩

/-- Claim C8 (amended): a single-node tree yields exactly three directories —
the root plus the `left` and `right` null-page directories — and three
pages; the root page has no Parent link but does carry Left and Right links
(to the two null pages, which link back to the root). -/
theorem claim_C8 (v : Int) (root : String) :
    mkdirsOf (generate_tree_pages (.node v .null .null) root none 0) =
      [ root, pjoin root "left", pjoin root "right"] ∧
    writesOf (generate_tree_pages (.node v .null .null) root none 0) =
      [ (pjoin root "index.html", node_page_html v none 0),
        (pjoin (pjoin root "left") "index.html",
          null_page_html (pjoin root "left") (some "../index.html")),
        (pjoin (pjoin root "right") "index.html",
          null_page_html (pjoin root "right") (some "../index.html"))] ∧
    containsSub (node_page_html v none 0) left_link_html ∧
    containsSub (node_page_html v none 0) right_link_html ∧
    ¬ containsSub (node_page_html v none 0) "Return to Parent" :=
  ⟨rfl, rfl, node_page_has_left v none 0, node_page_has_right v none 0,
    node_page_no_parent v none 0 rfl⟩

/-- Claim C9 (counterexample): on the single-node tree the recursion depth of
`generate_tree_pages` (modelled by `callDepth`, which mirrors its call
structure: a call on a node always recurses into both child slots, a call on
`None` makes no further calls) is 1, while the tree's height is 0. -/
theorem claim_C9_counterexample :
    callDepth (.node 5 .null .null) = 1 ∧ height (.node 5 .null .null) = 0 ∧
      callDepth (.node 5 .null .null) ≠ height (.node 5 .null .null) := by
  exact ⟨rfl, rfl, by decide⟩

/-- Claim C9 (amended): `generate_tree_pages` terminates on every finite tree
(it is a total structurally recursive function of the tree), and its
recursion depth is the tree's height plus one: the run descends one level
past each deepest node to write the null pages. -/
theorem claim_C9 (v : Int) (l r : Node) :
    callDepth (.node v l r) = height (.node v l r) + 1 :=
  callDepth_eq_height_succ v l r

/-- Claim C10: called at the public interface with `node = None` and the
default `parent_path = None`, the run does not raise: it creates the output
directory and writes a null page whose single anchor carries the literal
string `None` as its href (Python's f-string renders `None` that way). -/
theorem claim_C10 (dir : String) :
    generate_tree_pages .null dir none 0 =
      [ FsEvent.mkdir dir,
        FsEvent.write (pjoin dir "index.html") (null_page_html dir none)] ∧
    containsSub (null_page_html dir none)
      "<a class=\"circle-link\" href=\"None\">Return to Parent</a>" :=
  ⟨rfl, null_page_none_href dir⟩
